import Mathlib

/-!
Verification development for the cutkmz tool: a shallow embedding in Lean 4
of the geo-tile bounding-box computation, the filename bounding-box parser
and the raster mosaic-layout walk, translated from the Go source
(src/cmd/bigkmz.go, src/cmd/kmz.go). Go float64 values are modelled as
exact rationals, Go ints as naturals or integers as appropriate.
-/

set_option maxRecDepth 2000

/-- Truncation of a rational toward zero, as Go float-to-int conversion and
the quotient underlying Go math.Mod behave: floor for nonnegative values,
ceiling for negative ones. -/
def goTrunc (q : ℚ) : ℤ := if 0 ≤ q then ⌊q⌋ else ⌈q⌉

/-- Go math.Mod x y: the sign-preserving remainder x - y * trunc (x / y);
its sign follows the first operand x. -/
def goMod (x y : ℚ) : ℚ := x - y * goTrunc (x / y)

/-- Go normEasting (bigkmz.go): the given longitude in decimal degrees
normalized to lie within the range -180 to 180, using the sign-preserving
remainder of Go math.Mod. -/
def normEasting (deg : ℚ) : ℚ :=
  if deg < -180 then goMod (deg + 180) 360 + 180
  else if deg > 180 then goMod (deg - 180) 360 - 180
  else deg

/-- Go eastDelta (bigkmz.go): the positive decimal-degree difference between
the given east and west longitudes, after normalizing both. -/
def eastDelta (e w : ℚ) : ℚ :=
  let e' := normEasting e
  let w' := normEasting w
  if e' < w' then 360 + e' - w' else e' - w'

/-- Lat/long bounding box in decimal degrees: the Go source keeps it as a
4-element float64 array indexed by the constants north, south, east, west;
here the four slots are named fields. -/
structure geoBox where
  north : ℚ
  south : ℚ
  east : ℚ
  west : ℚ
deriving DecidableEq, Repr

/-- Go mapTile (bigkmz.go): an image file path, its pixel width and height,
and its lat/long bounding box. -/
structure mapTile where
  fpath : String
  width : ℕ
  height : ℕ
  box : geoBox
deriving DecidableEq, Repr

/-- Go delta (bigkmz.go): how many degrees further south the bottom of the
tile is than the top and how many degrees further east its east edge is than
its west edge, from the tile pixel size, the map bounding box and the map
pixel size. Returns the pair (nsDeltaDeg, ewDeltaDeg). -/
def delta (tileWidth tileHeight : ℕ) (box : geoBox) (totWidth totHeight : ℕ) : ℚ × ℚ :=
  ((tileHeight : ℚ) / (totHeight : ℚ) * (box.north - box.south),
   (tileWidth : ℚ) / (totWidth : ℚ) * eastDelta box.east box.west)

/-- Go finishTileBox (bigkmz.go): completes the tile box by setting its south
and east boundaries relative to its current north and west values using the
tile pixel size relative to the full map pixel size. The Go code mutates the
tile in place; here the updated tile is returned. -/
def finishTileBox (tile fullMap : mapTile) : mapTile :=
  let d := delta tile.width tile.height fullMap.box fullMap.width fullMap.height
  { tile with box := { tile.box with south := tile.box.north - d.1, east := tile.box.west + d.2 } }

/-- Go NewMapTile (bigkmz.go): populates a map tile from the given path,
pixel size and box corners, normalizing east and west. The Go code panics if
north is above 90, south below -90 or north less than south; the panic is
modelled as none. -/
def NewMapTile (fpath : String) (pixWid pixHigh : ℕ) (n s e w : ℚ) : Option mapTile :=
  if 90 < n ∨ s < -90 ∨ n < s then none
  else some ⟨fpath, pixWid, pixHigh, ⟨n, s, normEasting e, normEasting w⟩⟩

/-- Go strings.Split for a single-character separator, on character lists:
always returns at least one piece; pieces do not contain the separator. -/
def splitOnChar (sep : Char) : List Char → List (List Char)
  | [] => [[]]
  | c :: t =>
    match splitOnChar sep t with
    | [] => [[]]
    | h :: r => if c = sep then [] :: h :: r else (c :: h) :: r

/-- Numeric value of a list of decimal digit characters, most significant
first, as Go digit accumulation computes it. -/
def digitsVal (l : List Char) : ℕ := l.foldl (fun a c => a * 10 + (c.toNat - 48)) 0

/-- Mantissa part of a decimal floating-point literal: digits with an
optional single decimal point, at least one digit overall. -/
def parseMantissa (l : List Char) : Option ℚ :=
  let ip := l.takeWhile Char.isDigit
  match l.dropWhile Char.isDigit with
  | [] => if ip = [] then none else some (digitsVal ip : ℚ)
  | '.' :: frac =>
    if frac.all Char.isDigit ∧ ¬(ip = [] ∧ frac = []) then
      some ((digitsVal ip : ℚ) + (digitsVal frac : ℚ) / ((10 ^ frac.length : ℕ) : ℚ))
    else none
  | _ => none

/-- Exponent part of a decimal floating-point literal: an optional sign
followed by at least one digit. -/
def parseExponent (l : List Char) : Option ℤ :=
  match l with
  | '+' :: t => if t ≠ [] ∧ t.all Char.isDigit then some (digitsVal t : ℤ) else none
  | '-' :: t => if t ≠ [] ∧ t.all Char.isDigit then some (-(digitsVal t : ℤ)) else none
  | t => if t ≠ [] ∧ t.all Char.isDigit then some (digitsVal t : ℤ) else none

/-- Power of ten with an integer exponent, as an exact rational. -/
def pow10 (ex : ℤ) : ℚ :=
  if 0 ≤ ex then ((10 ^ ex.toNat : ℕ) : ℚ) else 1 / ((10 ^ (-ex).toNat : ℕ) : ℚ)

/-- Split of a float literal body at the first exponent marker e or E:
the mantissa characters, and the exponent characters when a marker occurs. -/
def splitMantExp (l : List Char) : List Char × Option (List Char) :=
  let m := l.takeWhile fun c => !(c == 'e' || c == 'E')
  match l.dropWhile (fun c => !(c == 'e' || c == 'E')) with
  | [] => (m, none)
  | _ :: t => (m, some t)

/-- Model of Go strconv.ParseFloat restricted to finite decimal literals
(optional sign, decimal mantissa, optional decimal exponent), producing the
exact rational value instead of the nearest binary float64; the hex, Inf,
NaN and digit-separator forms the Go parser also accepts are not modelled,
and out-of-range magnitudes are not rejected. -/
def goParseFloat (s : String) : Option ℚ :=
  let (sgn, body) :=
    match s.data with
    | '+' :: t => ((1 : ℚ), t)
    | '-' :: t => ((-1 : ℚ), t)
    | t => ((1 : ℚ), t)
  match splitMantExp body with
  | (m, none) => (parseMantissa m).map fun q => sgn * q
  | (m, some el) =>
    match parseMantissa m, parseExponent el with
    | some q, some ex => some (sgn * q * pow10 ex)
    | _, _ => none

/-- Model of Go strconv.Atoi restricted to an optional sign followed by
decimal digits; the int64 range cut-off is not modelled. -/
def goAtoi (s : String) : Option ℤ :=
  match s.data with
  | '+' :: t => if t ≠ [] ∧ t.all Char.isDigit then some (digitsVal t : ℤ) else none
  | '-' :: t => if t ≠ [] ∧ t.all Char.isDigit then some (-(digitsVal t : ℤ)) else none
  | t => if t ≠ [] ∧ t.all Char.isDigit then some (digitsVal t : ℤ) else none

/-- Model of Go path/filepath.Base on slash-separated paths: the empty path
gives ".", a path of only slashes gives "/", otherwise trailing slashes are
dropped and the last slash-separated element is returned. -/
def goBase (s : String) : String :=
  if s.data = [] then "."
  else
    let r := s.data.reverse.dropWhile fun c => c == '/'
    if r = [] then "/"
    else ⟨(r.takeWhile fun c => !(c == '/')).reverse⟩

/-- Extension stripping getBox applies to the fifth underscore field: Go
splits on "." with SplitN limit 3 and, when that yields three parts, keeps
the first two rejoined with "."; with fewer parts the field is unchanged. -/
def stripLastExt (s : String) : String :=
  match splitOnChar '.' s.data with
  | a :: b :: _ :: _ => ⟨a ++ '.' :: b⟩
  | _ => s

/-- Field i of the underscore-split of a filename, as a string; used to
state properties of getBox. -/
def nthField (image : String) (i : ℕ) : String :=
  ⟨(splitOnChar '_' image.data).getD i []⟩

/-- Go getBox (bigkmz.go): map name and lat/long bounding box extracted from
a file name of the form name_N_S_E_W.ext; fails unless the underscore split
has exactly 5 parts, each coordinate parses as a float (the last one after
extension stripping), north is greater than south, north is at most 90 and
south is at least -90. The Go error return is modelled as none; the result
tuple is (base, north, south, east, west). -/
def getBox (image : String) : Option (String × ℚ × ℚ × ℚ × ℚ) :=
  let c := (splitOnChar '_' image.data).map fun l => (⟨l⟩ : String)
  if c.length ≠ 5 then none
  else
    match goParseFloat (c.getD 1 ""), goParseFloat (c.getD 2 ""),
        goParseFloat (c.getD 3 ""), goParseFloat (stripLastExt (c.getD 4 "")) with
    | some n, some s, some e, some w =>
      if n ≤ s ∨ 90 < n ∨ s < -90 then none
      else some (goBase (c.getD 0 ""), n, s, e, w)
    | _, _, _, _ => none

/-- Parse pipeline of process and processBig (bigkmz.go): getBox on the file
name followed by NewMapTile on the parsed box with the image pixel size, as
NewMapTileFromFile performs it; returns the map name and the tile. -/
def parseMapTile (image : String) (width height : ℕ) : Option (String × mapTile) :=
  match getBox image with
  | none => none
  | some (base, n, s, e, w) =>
    match NewMapTile image width height n s e w with
    | none => none
    | some t => some (base, t)

/-- Parsing of the identify "%w %h" output in the primary imageWxH
(bigkmz.go): exactly two space-separated fields, width from the first and
height from the second. -/
def imageWxH (out : String) : Option (ℤ × ℤ) :=
  let wh := splitOnChar ' ' out.data
  if wh.length ≠ 2 then none
  else
    match goAtoi ⟨wh.getD 0 []⟩, goAtoi ⟨wh.getD 1 []⟩ with
    | some w, some h => some (w, h)
    | _, _ => none

/-- Parsing of the identify "%w %h" output in the duplicate imageWxH found
in src/cmd/kmz.go lines 152-174: exactly two space-separated fields, but
both width and height are parsed from the first field wh[0]. -/
def imageWxHDup (out : String) : Option (ℤ × ℤ) :=
  let wh := splitOnChar ' ' out.data
  if wh.length ≠ 2 then none
  else
    match goAtoi ⟨wh.getD 0 []⟩, goAtoi ⟨wh.getD 0 []⟩ with
    | some w, some h => some (w, h)
    | _, _ => none

/-- Tile loop of process (bigkmz.go lines 481-513) on the raster-ordered
sequence of tile pixel sizes: each tile is anchored through NewMapTile at
the current north and west with placeholder south and east of 0, completed
by finishTileBox, and the walk state advances - on a row break (accumulated
width at least the full map width) the north drops to the just-computed
tile south and the west resets to the full map west, otherwise the west
moves to the tile east. A NewMapTile panic aborts the walk as none. -/
def rasterWalkAux (fullMap : mapTile) : ℚ → ℚ → ℕ → List (ℕ × ℕ) → Option (List mapTile)
  | _, _, _, [] => some []
  | currNorth, currWest, widthSum, (tw, th) :: rest =>
    (NewMapTile "" tw th currNorth 0 0 currWest).bind fun t0 =>
      if fullMap.width ≤ widthSum + tw then
        (rasterWalkAux fullMap (finishTileBox t0 fullMap).box.south fullMap.box.west 0 rest).map
          fun l => finishTileBox t0 fullMap :: l
      else
        (rasterWalkAux fullMap currNorth (finishTileBox t0 fullMap).box.east (widthSum + tw) rest).map
          fun l => finishTileBox t0 fullMap :: l

/-- Raster layout walk started from the full map north-west corner with an
empty width accumulator, as the process tile loop initializes it. -/
def rasterWalk (fullMap : mapTile) (sizes : List (ℕ × ℕ)) : Option (List mapTile) :=
  rasterWalkAux fullMap fullMap.box.north fullMap.box.west 0 sizes

/-- GeoBox invariants of the data model: north above south, latitudes within
-90 to 90, longitudes normalized within -180 to 180. -/
abbrev geoBoxInv (b : geoBox) : Prop :=
  b.south < b.north ∧ -90 ≤ b.south ∧ b.north ≤ 90 ∧
  -180 ≤ b.east ∧ b.east ≤ 180 ∧ -180 ≤ b.west ∧ b.west ≤ 180

/-- Specification of one raster row of tile pixel sizes against a parent of
pixel width W and a common row height h: the row is nonempty, every tile has
positive width and height exactly h, and the widths sum to W. -/
abbrev rowSpec (W h : ℕ) (r : List (ℕ × ℕ)) : Prop :=
  r ≠ [] ∧ (∀ s ∈ r, 0 < s.1 ∧ s.2 = h) ∧ (r.map Prod.fst).sum = W

/-- Latitude conclusions claimed for every tile a raster walk produces. -/
abbrev tileLatOK (t : mapTile) : Prop :=
  t.box.south ≤ t.box.north ∧ -90 ≤ t.box.north ∧ t.box.north ≤ 90 ∧
  -90 ≤ t.box.south ∧ t.box.south ≤ 90

/-- Shared-edge relation between raster-consecutive tiles of one row: the
later tile's stored west is the normalization of the earlier tile's east,
that is they coincide before normalization. -/
abbrev rowAdjacent (a b : mapTile) : Prop := b.box.west = normEasting a.box.east

/-- Parent map tile of the C1 counterexample: a 1 by 1 pixel map with a
valid box from latitude -89 up to 0 and longitude 0 east to 10. -/
def parentCX : mapTile := ⟨"", 1, 1, ⟨0, -89, 10, 0⟩⟩

/-- Parent map tile of the end-to-end grid walk: 10000 by 10000 pixels with
box north 50, south 40, east 10, west 0. -/
def parentC7 : mapTile := ⟨"", 10000, 10000, ⟨50, 40, 10, 0⟩⟩

/-- Tile the raster walk produces at anchor north cn, west cw with pixel
size tw by th: the anchored NewMapTile payload completed by finishTileBox
against the full map. -/
def mkTile (p : mapTile) (cn cw : ℚ) (tw th : ℕ) : mapTile :=
  finishTileBox ⟨"", tw, th, ⟨cn, 0, normEasting 0, normEasting cw⟩⟩ p

/-- Lower and strict upper bound of the Go remainder by 360 for a
nonnegative first operand. -/
theorem goMod_bounds_nonneg (x : ℚ) (hx : 0 ≤ x) : 0 ≤ goMod x 360 ∧ goMod x 360 < 360 := by
  have hq : (0 : ℚ) ≤ x / 360 := by positivity
  have h1 : ((⌊x / 360⌋ : ℤ) : ℚ) * 360 ≤ x := by
    have := Int.floor_le (x / 360)
    calc ((⌊x / 360⌋ : ℤ) : ℚ) * 360 ≤ x / 360 * 360 := by nlinarith
    _ = x := by field_simp
  have h2 : x < (((⌊x / 360⌋ : ℤ) : ℚ) + 1) * 360 := by
    have := Int.lt_floor_add_one (x / 360)
    calc x = x / 360 * 360 := by field_simp
    _ < (((⌊x / 360⌋ : ℤ) : ℚ) + 1) * 360 := by nlinarith
  rw [goMod, goTrunc, if_pos hq]
  constructor <;> nlinarith

/-- Strict lower and upper bound of the Go remainder by 360 for a negative
first operand. -/
theorem goMod_bounds_neg (x : ℚ) (hx : x < 0) : -360 < goMod x 360 ∧ goMod x 360 ≤ 0 := by
  have hq : ¬ (0 : ℚ) ≤ x / 360 := by
    rw [not_le]
    exact div_neg_of_neg_of_pos hx (by norm_num)
  have h1 : x ≤ ((⌈x / 360⌉ : ℤ) : ℚ) * 360 := by
    have := Int.le_ceil (x / 360)
    calc x = x / 360 * 360 := by field_simp
    _ ≤ ((⌈x / 360⌉ : ℤ) : ℚ) * 360 := by nlinarith
  have h2 : ((⌈x / 360⌉ : ℤ) : ℚ) * 360 < x + 360 := by
    have := Int.ceil_lt_add_one (x / 360)
    calc ((⌈x / 360⌉ : ℤ) : ℚ) * 360 < (x / 360 + 1) * 360 := by nlinarith
    _ = x + 360 := by field_simp
  rw [goMod, goTrunc, if_neg hq]
  constructor <;> nlinarith

/-- Range of the longitude normalizer: every output lies within -180 and
180. -/
theorem normEasting_bounds (deg : ℚ) : -180 ≤ normEasting deg ∧ normEasting deg ≤ 180 := by
  rw [normEasting]
  split_ifs with h1 h2
  · have h := goMod_bounds_neg (deg + 180) (by linarith)
    constructor <;> linarith [h.1, h.2]
  · have h := goMod_bounds_nonneg (deg - 180) (by linarith)
    constructor <;> linarith [h.1, h.2]
  · exact ⟨not_lt.mp h1, not_lt.mp h2⟩

/-- Congruence of the longitude normalizer: the output differs from the
input by an integer multiple of 360. -/
theorem normEasting_congr (deg : ℚ) : ∃ k : ℤ, normEasting deg = deg + 360 * k := by
  rw [normEasting]
  split_ifs with h1 h2
  · exact ⟨1 - goTrunc ((deg + 180) / 360), by rw [goMod]; push_cast; ring⟩
  · exact ⟨-1 - goTrunc ((deg - 180) / 360), by rw [goMod]; push_cast; ring⟩
  · exact ⟨0, by ring⟩

/-- Identity of the longitude normalizer on the canonical range. -/
theorem normEasting_fixed (deg : ℚ) (h1 : -180 ≤ deg) (h2 : deg ≤ 180) :
    normEasting deg = deg := by
  rw [normEasting, if_neg (not_lt.mpr h1), if_neg (not_lt.mpr h2)]

/-- Range of eastDelta: with both longitudes normalized into -180 to 180
the positive-difference computation lands in 0 to 360. -/
theorem eastDelta_bounds (e w : ℚ) : 0 ≤ eastDelta e w ∧ eastDelta e w ≤ 360 := by
  obtain ⟨he1, he2⟩ := normEasting_bounds e
  obtain ⟨hw1, hw2⟩ := normEasting_bounds w
  rw [eastDelta]
  split_ifs with h <;> constructor <;> linarith

/-- Success and failure shape of NewMapTile: none exactly on the panic
condition, otherwise the literal tile with normalized longitudes. -/
theorem NewMapTile_none_iff (fpath : String) (pw ph : ℕ) (n s e w : ℚ) :
    NewMapTile fpath pw ph n s e w = none ↔ (90 < n ∨ s < -90 ∨ n < s) := by
  rw [NewMapTile]
  split_ifs with h <;> simp [h]

/-- Value of NewMapTile when the panic condition does not hold. -/
theorem NewMapTile_some_eq (fpath : String) (pw ph : ℕ) (n s e w : ℚ)
    (h : ¬(90 < n ∨ s < -90 ∨ n < s)) :
    NewMapTile fpath pw ph n s e w
      = some ⟨fpath, pw, ph, ⟨n, s, normEasting e, normEasting w⟩⟩ := by
  rw [NewMapTile, if_neg h]

/-- C2: finishTileBox sets exactly the south and east of the tile box, to
north minus the north-south delta and west plus the east-west delta scaled
from the tile pixel fraction of the parent; north, west, file path and
pixel size are unchanged, and no renormalization is applied, so the east
can exceed 180 as the closing concrete instance shows. -/
theorem c2_finishTileBox_frame :
    (∀ tile fullMap : mapTile,
      (finishTileBox tile fullMap).box.south
          = tile.box.north
            - (tile.height : ℚ) / (fullMap.height : ℚ) * (fullMap.box.north - fullMap.box.south) ∧
      (finishTileBox tile fullMap).box.east
          = tile.box.west
            + (tile.width : ℚ) / (fullMap.width : ℚ) * eastDelta fullMap.box.east fullMap.box.west ∧
      (finishTileBox tile fullMap).box.north = tile.box.north ∧
      (finishTileBox tile fullMap).box.west = tile.box.west ∧
      (finishTileBox tile fullMap).fpath = tile.fpath ∧
      (finishTileBox tile fullMap).width = tile.width ∧
      (finishTileBox tile fullMap).height = tile.height) ∧
    180 < (finishTileBox ⟨"", 100, 100, ⟨10, 5, 0, 175⟩⟩ ⟨"", 100, 100, ⟨10, 0, 180, 170⟩⟩).box.east := by
  refine ⟨fun tile fullMap => ⟨rfl, rfl, rfl, rfl, rfl, rfl, rfl⟩, ?_⟩
  have h : (finishTileBox ⟨"", 100, 100, ⟨10, 5, 0, 175⟩⟩ ⟨"", 100, 100, ⟨10, 0, 180, 170⟩⟩).box.east
      = 185 := by with_unfolding_all rfl
  rw [h]
  norm_num

/-- C3 counterexample: eastDelta at equal longitudes returns 0, which does
not lie in the open-below interval from 0 to 360 the claim states. -/
theorem c3_eastDelta_zero_counterexample : eastDelta 0 0 = 0 ∧ ¬ 0 < eastDelta 0 0 := by
  have h : eastDelta 0 0 = 0 := by with_unfolding_all rfl
  exact ⟨h, by rw [h]; exact lt_irrefl 0⟩

/-- C3 amended: eastDelta normalizes both longitudes and returns their
difference, adding 360 when the normalized east is below the normalized
west; the result always lies in the closed interval from 0 to 360, and the
five literal vectors of the spec hold. -/
theorem c3_eastDelta_spec :
    (∀ e w : ℚ, eastDelta e w
        = if normEasting e < normEasting w then 360 + normEasting e - normEasting w
          else normEasting e - normEasting w) ∧
    (∀ e w : ℚ, 0 ≤ eastDelta e w ∧ eastDelta e w ≤ 360) ∧
    eastDelta 10 0 = 10 ∧ eastDelta (-100) (-120) = 20 ∧ eastDelta 10 (-10) = 20 ∧
    eastDelta (-170) 170 = 20 ∧ eastDelta 170 178 = 352 := by
  refine ⟨fun e w => rfl, eastDelta_bounds, ?_, ?_, ?_, ?_, ?_⟩ <;> with_unfolding_all rfl

/-- C4: normEasting lands in -180 to 180, is congruent to its input modulo
360, leaves inputs already in -180 to 180 unchanged, and satisfies the
seven literal boundary vectors of the spec exactly. -/
theorem c4_normEasting_spec :
    (∀ deg : ℚ, -180 ≤ normEasting deg ∧ normEasting deg ≤ 180) ∧
    (∀ deg : ℚ, ∃ k : ℤ, normEasting deg = deg + 360 * k) ∧
    (∀ deg : ℚ, -180 ≤ deg → deg ≤ 180 → normEasting deg = deg) ∧
    normEasting 180 = 180 ∧ normEasting (-180) = -180 ∧ normEasting (-185) = 175 ∧
    normEasting (-360) = 0 ∧ normEasting 360 = 0 ∧ normEasting 420 = 60 ∧
    normEasting (-420) = -60 := by
  refine ⟨normEasting_bounds, normEasting_congr, normEasting_fixed, ?_, ?_, ?_, ?_, ?_, ?_, ?_⟩ <;>
    with_unfolding_all rfl

/-- C6 counterexample: the claim demands a domain error whenever north is
at most south, but NewMapTile accepts a degenerate box with north equal to
south, checking only the strict comparison. -/
theorem c6_NewMapTile_counterexample :
    (0 : ℚ) ≤ 0 ∧ NewMapTile "t" 2 2 0 0 5 5 ≠ none := by
  constructor
  · exact le_refl 0
  · have h : NewMapTile "t" 2 2 0 0 5 5
        = some ⟨"t", 2, 2, ⟨0, 0, normEasting 5, normEasting 5⟩⟩ := by
      with_unfolding_all rfl
    rw [h]
    exact Option.some_ne_none _
/-- C6 amended: NewMapTile raises its domain error exactly when north is
strictly below south, north exceeds 90 or south is below -90 (a degenerate
box with north equal to south is accepted); boxes touching a pole with
north 90 or south -90 are accepted, and the two spec rejection vectors
hold. -/
theorem c6_NewMapTile_domain :
    (∀ (fpath : String) (pw ph : ℕ) (n s e w : ℚ),
      NewMapTile fpath pw ph n s e w = none ↔ (90 < n ∨ s < -90 ∨ n < s)) ∧
    (NewMapTile "p" 1 1 90 0 0 0).isSome = true ∧
    (NewMapTile "p" 1 1 0 (-90) 0 0).isSome = true ∧
    NewMapTile "p" 1 1 49.4 60 0 0 = none ∧
    NewMapTile "p" 1 1 91 0 0 0 = none := by
  refine ⟨NewMapTile_none_iff, ?_, ?_, ?_, ?_⟩ <;> with_unfolding_all rfl

/-- C9: on the identify output with width 640 and height 480, the primary
imageWxH returns both dimensions while the duplicate in src/cmd/kmz.go
returns the width token for both, so the two helpers disagree: the
duplicate reused the first field where the second was intended. -/
theorem c9_imageWxH_divergence :
    imageWxH "640 480" = some (640, 480) ∧
    imageWxHDup "640 480" = some (640, 640) ∧
    imageWxHDup "640 480" ≠ imageWxH "640 480" := by
  refine ⟨by with_unfolding_all rfl, by with_unfolding_all rfl, ?_⟩
  have h1 : imageWxH "640 480" = some (640, 480) := by with_unfolding_all rfl
  have h2 : imageWxHDup "640 480" = some (640, 640) := by with_unfolding_all rfl
  rw [h1, h2]
  intro h
  have := Option.some.inj h
  have h480 : (480 : ℤ) = 640 := congrArg Prod.snd this |>.symm
  norm_num at h480

/-- C1 counterexample: with the parent box from -89 up to 0 over a 1 by 1
pixel map and a single raster row consisting of one positive 1 by 2 pixel
tile whose width sums to the parent width, the walk succeeds and produces a
tile whose south is -178, far below -90, because nothing ties the tile
heights to the parent pixel height. -/
theorem c1_raster_walk_counterexample :
    geoBoxInv parentCX.box ∧ 0 < parentCX.width ∧ 0 < parentCX.height ∧
    rowSpec parentCX.width 2 [(1, 2)] ∧
    rasterWalk parentCX [(1, 2)] = some [⟨"", 1, 2, ⟨0, -178, 10, 0⟩⟩] ∧
    (⟨"", 1, 2, ⟨0, -178, 10, 0⟩⟩ : mapTile).box.south < -90 := by
  refine ⟨?_, ?_, ?_, ?_, ?_, ?_⟩
  · refine ⟨?_, ?_, ?_, ?_, ?_, ?_, ?_⟩ <;> norm_num [parentCX, geoBoxInv]
  · norm_num [parentCX]
  · norm_num [parentCX]
  · refine ⟨by simp, ?_, by simp [parentCX]⟩
    intro s hs
    simp only [List.mem_singleton] at hs
    subst hs
    exact ⟨Nat.one_pos, rfl⟩
  · with_unfolding_all rfl
  · norm_num

/-- Indexing with default commutes with mapping the string constructor over
a split result. -/
theorem getD_map_mk (l : List (List Char)) (i : ℕ) :
    (l.map fun x => (⟨x⟩ : String)).getD i "" = ⟨l.getD i []⟩ := by
  induction l generalizing i with
  | nil => cases i <;> rfl
  | cons a t ih =>
    cases i with
    | zero => rfl
    | succ n => exact ih n

/-- C5: getBox fails exactly when the underscore split does not have 5
parts, one of the four coordinate fields does not parse (the last after
extension stripping), or the latitude validation north greater than south
within -90 to 90 fails; the reversed Grouse-Mountain vector fails and the
ordered one parses to its literal name and coordinates. -/
theorem c5_getBox_spec :
    (∀ img : String,
      getBox img = none ↔
        ((splitOnChar '_' img.data).length ≠ 5 ∨
         goParseFloat (nthField img 1) = none ∨
         goParseFloat (nthField img 2) = none ∨
         goParseFloat (nthField img 3) = none ∨
         goParseFloat (stripLastExt (nthField img 4)) = none ∨
         ∃ n s : ℚ, goParseFloat (nthField img 1) = some n ∧
           goParseFloat (nthField img 2) = some s ∧ (n ≤ s ∨ 90 < n ∨ s < -90))) ∧
    getBox "Grouse-Mountain_49.336694_49.470628_-123.132056_-122.9811.jpg" = none ∧
    getBox "Grouse-Mountain_49.470628_49.336694_-123.132056_-122.9811.jpg"
      = some ("Grouse-Mountain", 49.470628, 49.336694, -123.132056, -122.9811) := by
  refine ⟨?_, by with_unfolding_all rfl, by with_unfolding_all rfl⟩
  intro img
  rw [getBox]
  simp only [nthField, getD_map_mk, List.length_map]
  by_cases h5 : (splitOnChar '_' img.data).length = 5
  · rw [if_neg (by simpa using h5)]
    rcases e1 : goParseFloat ⟨(splitOnChar '_' img.data).getD 1 []⟩ with _ | n
    · simp [e1, h5]
    rcases e2 : goParseFloat ⟨(splitOnChar '_' img.data).getD 2 []⟩ with _ | s
    · simp [e1, e2, h5]
    rcases e3 : goParseFloat ⟨(splitOnChar '_' img.data).getD 3 []⟩ with _ | e
    · simp [e1, e2, e3, h5]
    rcases e4 : goParseFloat (stripLastExt ⟨(splitOnChar '_' img.data).getD 4 []⟩) with _ | w
    · simp [e1, e2, e3, e4, h5]
    dsimp only
    by_cases hv : n ≤ s ∨ 90 < n ∨ s < -90
    · rw [if_pos hv]
      refine iff_of_true rfl ?_
      exact Or.inr (Or.inr (Or.inr (Or.inr (Or.inr ⟨n, s, rfl, rfl, hv⟩))))
    · rw [if_neg hv]
      refine iff_of_false (Option.some_ne_none _) ?_
      push_neg
      refine ⟨by simpa using h5, by simp, by simp, by simp, by simp, ?_⟩
      intro n' s' hn' hs'
      cases Option.some.inj hn'
      cases Option.some.inj hs'
      simpa using hv
  · rw [if_pos (by simpa using h5)]
    exact iff_of_true rfl (Or.inl (by simpa using h5))

/-- C8: whenever getBox accepts a filename, the returned map name is the
filesystem base name of the first underscore component, and the parse
pipeline that builds the map tile from the parsed box succeeds and stores
exactly the normEasting image of the parsed east and west. -/
theorem c8_parse_normalized (img : String) (wid hgt : ℕ) (base : String) (n s e w : ℚ)
    (hp : getBox img = some (base, n, s, e, w)) :
    base = goBase (nthField img 0) ∧
    parseMapTile img wid hgt
      = some (base, ⟨img, wid, hgt, ⟨n, s, normEasting e, normEasting w⟩⟩) := by
  have hp' := hp
  rw [getBox] at hp
  simp only [getD_map_mk, List.length_map] at hp
  by_cases h5 : (splitOnChar '_' img.data).length = 5
  · rw [if_neg (by simpa using h5)] at hp
    rcases e1 : goParseFloat ⟨(splitOnChar '_' img.data).getD 1 []⟩ with _ | n₀ <;> rw [e1] at hp
    · exact absurd hp (by simp)
    rcases e2 : goParseFloat ⟨(splitOnChar '_' img.data).getD 2 []⟩ with _ | s₀ <;> rw [e2] at hp
    · exact absurd hp (by simp)
    rcases e3 : goParseFloat ⟨(splitOnChar '_' img.data).getD 3 []⟩ with _ | e₀ <;> rw [e3] at hp
    · exact absurd hp (by simp)
    rcases e4 : goParseFloat (stripLastExt ⟨(splitOnChar '_' img.data).getD 4 []⟩) with _ | w₀ <;>
      rw [e4] at hp
    · exact absurd hp (by simp)
    dsimp only at hp
    by_cases hv : n₀ ≤ s₀ ∨ 90 < n₀ ∨ s₀ < -90
    · rw [if_pos hv] at hp
      exact absurd hp (by simp)
    rw [if_neg hv] at hp
    simp only [Option.some.injEq, Prod.mk.injEq] at hp
    obtain ⟨hb, hn, hs, he, hw⟩ := hp
    subst hn hs he hw
    push_neg at hv
    constructor
    · rw [nthField, ← hb]
    · have hguard : ¬(90 < n₀ ∨ s₀ < -90 ∨ n₀ < s₀) := by
        push_neg
        exact ⟨hv.2.1, hv.2.2, le_of_lt hv.1⟩
      rw [parseMapTile]
      rw [hp']
      dsimp only
      rw [NewMapTile_some_eq img wid hgt n₀ s₀ e₀ w₀ hguard]
  · rw [if_pos (by simpa using h5)] at hp
    exact absurd hp (by simp)

/-- C8 witness: the pipeline applied to the well-formed Grouse-Mountain
filename with a 2 by 3 pixel image. -/
theorem c8_parse_normalized_witness :
    "Grouse-Mountain"
        = goBase (nthField "Grouse-Mountain_49.470628_49.336694_-123.132056_-122.9811.jpg" 0) ∧
    parseMapTile "Grouse-Mountain_49.470628_49.336694_-123.132056_-122.9811.jpg" 2 3
      = some ("Grouse-Mountain",
          ⟨"Grouse-Mountain_49.470628_49.336694_-123.132056_-122.9811.jpg", 2, 3,
            ⟨49.470628, 49.336694, normEasting (-123.132056), normEasting (-122.9811)⟩⟩) :=
  c8_parse_normalized "Grouse-Mountain_49.470628_49.336694_-123.132056_-122.9811.jpg" 2 3
    "Grouse-Mountain" 49.470628 49.336694 (-123.132056) (-122.9811)
    (by with_unfolding_all rfl)

/-- Corner values of the tile the walk anchors and completes at a given
state: north is the anchor latitude, west the normalized anchor longitude,
south and east the completed edges. -/
theorem mkTile_fields (p : mapTile) (cn cw : ℚ) (tw th : ℕ) :
    (mkTile p cn cw tw th).box.north = cn ∧
    (mkTile p cn cw tw th).box.west = normEasting cw ∧
    (mkTile p cn cw tw th).box.south
      = cn - (th : ℚ) / (p.height : ℚ) * (p.box.north - p.box.south) ∧
    (mkTile p cn cw tw th).box.east
      = normEasting cw + (tw : ℚ) / (p.width : ℚ) * eastDelta p.box.east p.box.west :=
  ⟨rfl, rfl, rfl, rfl⟩

/-- Inversion of one successful step of the raster walk on a nonempty size
list: the anchor latitude passed the NewMapTile guard, the head of the
output is the anchored completed tile, and the remaining output comes from
the recursive walk on the advanced state of the row-break or the in-row
branch. -/
theorem walkAux_cons_some {p : mapTile} {cn cw : ℚ} {ws tw th : ℕ}
    {rest : List (ℕ × ℕ)} {out : List mapTile}
    (hstep : rasterWalkAux p cn cw ws ((tw, th) :: rest) = some out) :
    (0 ≤ cn ∧ cn ≤ 90) ∧
    ∃ l, out = mkTile p cn cw tw th :: l ∧
      ((p.width ≤ ws + tw ∧
          rasterWalkAux p (mkTile p cn cw tw th).box.south p.box.west 0 rest = some l) ∨
       (¬ p.width ≤ ws + tw ∧
          rasterWalkAux p cn (mkTile p cn cw tw th).box.east (ws + tw) rest = some l)) := by
  have hmk : mkTile p cn cw tw th
      = finishTileBox ⟨"", tw, th, ⟨cn, 0, normEasting 0, normEasting cw⟩⟩ p := rfl
  rw [rasterWalkAux] at hstep
  by_cases hg : 90 < cn ∨ (0 : ℚ) < -90 ∨ cn < 0
  · rw [NewMapTile, if_pos hg] at hstep
    exact absurd hstep (by simp)
  rw [NewMapTile_some_eq _ _ _ _ _ _ _ hg] at hstep
  simp only [Option.some_bind] at hstep
  refine ⟨?_, ?_⟩
  · push_neg at hg
    exact ⟨hg.2.2, hg.1⟩
  by_cases hw : p.width ≤ ws + tw
  · rw [if_pos hw] at hstep
    rcases hrec : rasterWalkAux p
        (finishTileBox ⟨"", tw, th, ⟨cn, 0, normEasting 0, normEasting cw⟩⟩ p).box.south
        p.box.west 0 rest with _ | l <;> rw [hrec] at hstep
    · exact absurd hstep (by simp)
    refine ⟨l, ?_, Or.inl ⟨hw, by rw [hmk]; exact hrec⟩⟩
    simp only [Option.map_some', Option.some.injEq] at hstep
    rw [← hstep, hmk]
  · rw [if_neg hw] at hstep
    rcases hrec : rasterWalkAux p cn
        (finishTileBox ⟨"", tw, th, ⟨cn, 0, normEasting 0, normEasting cw⟩⟩ p).box.east
        (ws + tw) rest with _ | l <;> rw [hrec] at hstep
    · exact absurd hstep (by simp)
    refine ⟨l, ?_, Or.inr ⟨hw, by rw [hmk]; exact hrec⟩⟩
    simp only [Option.map_some', Option.some.injEq] at hstep
    rw [← hstep, hmk]

/-- Row inversion of the raster walk: a successful walk over one raster row
(positive widths summing with the accumulator to exactly the parent width,
uniform height h) followed by any remainder splits the output into the row
tiles and the output of the walk restarted below the row: the next state
drops the north by the row height fraction and resets west and the width
accumulator; the row produces exactly one tile per pixel-size entry, all
row tiles sit at the anchor latitude with the common south, the first
starts at the normalized entry longitude and consecutive ones are
edge-adjacent. -/
theorem walkAux_row {p : mapTile} {h : ℕ} :
    ∀ (r rest : List (ℕ × ℕ)) (cn cw : ℚ) (ws : ℕ) (out : List mapTile),
      r ≠ [] → (∀ s ∈ r, 0 < s.1 ∧ s.2 = h) → ws + (r.map Prod.fst).sum = p.width →
      rasterWalkAux p cn cw ws (r ++ rest) = some out →
      (0 ≤ cn ∧ cn ≤ 90) ∧
      ∃ rowTiles l,
        out = rowTiles ++ l ∧
        rasterWalkAux p (cn - (h : ℚ) / (p.height : ℚ) * (p.box.north - p.box.south))
          p.box.west 0 rest = some l ∧
        rowTiles.length = r.length ∧
        (rowTiles.head?.map fun t => t.box.west) = some (normEasting cw) ∧
        (∀ t ∈ rowTiles, t.box.north = cn ∧
          t.box.south = cn - (h : ℚ) / (p.height : ℚ) * (p.box.north - p.box.south)) ∧
        List.Chain' rowAdjacent rowTiles := by
  intro r
  induction r with
  | nil => intro rest cn cw ws out hne; exact absurd rfl hne
  | cons sz r' ih =>
    obtain ⟨tw, th⟩ := sz
    intro rest cn cw ws out _ hsz hsum hwalk
    rw [List.cons_append] at hwalk
    obtain ⟨hcn, l1, hout, hbranch⟩ := walkAux_cons_some hwalk
    have hth : th = h := (hsz (tw, th) (List.mem_cons_self _ _)).2
    have htw : 0 < tw := (hsz (tw, th) (List.mem_cons_self _ _)).1
    subst hth
    simp only [List.map_cons, List.sum_cons] at hsum
    have hmk := mkTile_fields p cn cw tw th
    rcases hbranch with ⟨hw, hrec⟩ | ⟨hw, hrec⟩
    · have hr' : r' = [] := by
        by_contra hne'
        obtain ⟨s', r'', rfl⟩ := List.exists_cons_of_ne_nil hne'
        have h1 : 0 < s'.1 := (hsz s' (List.mem_cons_of_mem _ (List.mem_cons_self _ _))).1
        simp only [List.map_cons, List.sum_cons] at hsum
        omega
      subst hr'
      refine ⟨hcn, [mkTile p cn cw tw th], l1, by simpa using hout, ?_, by simp, ?_, ?_, ?_⟩
      · rw [hmk.2.2.1] at hrec
        simpa using hrec
      · simp [hmk.2.1]
      · intro t ht
        simp only [List.mem_singleton] at ht
        subst ht
        exact ⟨hmk.1, hmk.2.2.1⟩
      · simp
    · have hr' : r' ≠ [] := by
        intro hr'
        subst hr'
        simp only [List.map_nil, List.sum_nil] at hsum
        omega
      have hsz' : ∀ s ∈ r', 0 < s.1 ∧ s.2 = th := fun s hs => hsz s (List.mem_cons_of_mem _ hs)
      have hsum' : (ws + tw) + (r'.map Prod.fst).sum = p.width := by omega
      obtain ⟨hcn', rowTiles', l', hout', hrest', hlen', hhead', hper', hchain'⟩ :=
        ih rest cn (mkTile p cn cw tw th).box.east (ws + tw) l1 hr' hsz' hsum' hrec
      refine ⟨hcn, mkTile p cn cw tw th :: rowTiles', l', ?_, hrest', by simp [hlen'], ?_, ?_, ?_⟩
      · rw [hout, hout', List.cons_append]
      · simp [hmk.2.1]
      · intro t ht
        rcases List.mem_cons.mp ht with rfl | ht'
        · exact ⟨hmk.1, hmk.2.2.1⟩
        · exact hper' t ht'
      · rw [List.chain'_cons']
        refine ⟨?_, hchain'⟩
        intro b hb
        rcases hb' : rowTiles'.head? with _ | b₀
        · rw [hb'] at hb
          exact absurd hb (by simp)
        rw [hb'] at hb hhead'
        simp only [Option.map_some', Option.some.injEq] at hhead'
        simp only [Option.mem_def, Option.some.injEq] at hb
        subst hb
        exact hhead'

/-- Multi-row inversion of the raster walk: from any anchor latitude
dominating the remaining height budget, a successful walk over a list of
raster rows yields only tiles with in-range latitudes, partitioned into
one tile row per input row - with matching tile counts, so the partition
is the walk's own row structure - each of edge-adjacent tiles. -/
theorem walkAux_rows {p : mapTile} (hH : 0 < p.height)
    (hNS : p.box.south < p.box.north) (hS : -90 ≤ p.box.south) :
    ∀ (rows : List (ℕ × List (ℕ × ℕ))) (cn cw : ℚ) (out : List mapTile),
      (∀ pr ∈ rows, 0 < pr.1 ∧ rowSpec p.width pr.1 pr.2) →
      p.box.south
          + ((rows.map Prod.fst).sum : ℚ) / (p.height : ℚ) * (p.box.north - p.box.south) ≤ cn →
      rasterWalkAux p cn cw 0 (rows.map Prod.snd).flatten = some out →
      (∀ t ∈ out, tileLatOK t) ∧
      ∃ tileRows : List (List mapTile), tileRows.flatten = out ∧
        tileRows.map List.length = rows.map (fun pr => pr.2.length) ∧
        ∀ tr ∈ tileRows, List.Chain' rowAdjacent tr := by
  intro rows
  induction rows with
  | nil =>
    intro cn cw out _ _ hwalk
    obtain rfl : ([] : List mapTile) = out := Option.some.inj hwalk
    exact ⟨by simp, [], by simp, by simp, by simp⟩
  | cons pr rows' ih =>
    obtain ⟨h, r⟩ := pr
    intro cn cw out hrows hbudget hwalk
    have hps := hrows (h, r) (List.mem_cons_self _ _)
    dsimp only at hps
    have hh := hps.1
    have hrs := hps.2
    rw [rowSpec] at hrs
    obtain ⟨hrne, hrsz, hrsum⟩ := hrs
    rw [List.map_cons, List.flatten_cons] at hwalk
    obtain ⟨hcn, rowTiles, l, hout, hrest, hrtlen, hhead, hper, hchain⟩ :=
      walkAux_row r (rows'.map Prod.snd).flatten cn cw 0 out hrne hrsz (by simpa using hrsum) hwalk
    have hHQ : (0 : ℚ) < (p.height : ℚ) := by exact_mod_cast hH
    have hsplit : ((((h, r) :: rows').map Prod.fst).sum : ℚ) / (p.height : ℚ)
          * (p.box.north - p.box.south)
        = (h : ℚ) / (p.height : ℚ) * (p.box.north - p.box.south)
          + ((rows'.map Prod.fst).sum : ℚ) / (p.height : ℚ) * (p.box.north - p.box.south) := by
      rw [List.map_cons, List.sum_cons]
      push_cast
      ring
    rw [hsplit] at hbudget
    have hnn : 0 ≤ ((rows'.map Prod.fst).sum : ℚ) / (p.height : ℚ)
        * (p.box.north - p.box.south) := by
      have h0 : (0 : ℚ) ≤ ((rows'.map Prod.fst).sum : ℚ) := by positivity
      have h1 : (0 : ℚ) ≤ ((rows'.map Prod.fst).sum : ℚ) / (p.height : ℚ) := by positivity
      nlinarith
    have hnnh : 0 ≤ (h : ℚ) / (p.height : ℚ) * (p.box.north - p.box.south) := by
      have h1 : (0 : ℚ) ≤ (h : ℚ) / (p.height : ℚ) := by positivity
      nlinarith
    obtain ⟨hlat', tileRows', hjoin', hmaplen', hchains'⟩ :=
      ih (cn - (h : ℚ) / (p.height : ℚ) * (p.box.north - p.box.south)) p.box.west l
        (fun q hq => hrows q (List.mem_cons_of_mem _ hq)) (by linarith) hrest
    refine ⟨?_, rowTiles :: tileRows', by rw [List.flatten_cons, hjoin', hout],
      by rw [List.map_cons, List.map_cons, hrtlen, hmaplen'], ?_⟩
    · intro t ht
      rw [hout] at ht
      rcases List.mem_append.mp ht with htr | htl
      · obtain ⟨htn, hts⟩ := hper t htr
        refine ⟨?_, ?_, ?_, ?_, ?_⟩
        · rw [htn, hts]; linarith
        · rw [htn]; linarith [hcn.1]
        · rw [htn]; exact hcn.2
        · rw [hts]; linarith
        · rw [hts]; linarith [hcn.2]
      · exact hlat' t htl
    · intro tr htr
      rcases List.mem_cons.mp htr with rfl | htr'
      · exact hchain
      · exact hchains' tr htr'

/-- C1 amended: for a parent map tile whose box satisfies the GeoBox
invariants (antimeridian-spanning boxes included) and a raster grid of
positive tile pixel sizes arranged in rows whose widths sum per row to the
parent pixel width, with a uniform tile height per row and the row heights
summing to at most the parent pixel height, every tile a completed raster
layout walk produces has south at most north and north and south within
-90 to 90, and the output splits into one tile row per input row with the
same tile count - the walk's own row structure - within which consecutive
tiles share an edge: the later tile's stored west is the normalization of
the earlier tile's east. The walk success hypothesis also encodes the
anchor constructor's guard, which aborts on row anchors outside 0 to
90. -/
theorem c1_raster_walk_invariants (p : mapTile) (rows : List (ℕ × List (ℕ × ℕ)))
    (tiles : List mapTile)
    (hbox : geoBoxInv p.box) (hH : 0 < p.height)
    (hrows : ∀ pr ∈ rows, 0 < pr.1 ∧ rowSpec p.width pr.1 pr.2)
    (hheights : (rows.map Prod.fst).sum ≤ p.height)
    (hwalk : rasterWalk p (rows.map Prod.snd).flatten = some tiles) :
    (∀ t ∈ tiles, tileLatOK t) ∧
    ∃ tileRows : List (List mapTile), tileRows.flatten = tiles ∧
      tileRows.map List.length = rows.map (fun pr => pr.2.length) ∧
      ∀ tr ∈ tileRows, List.Chain' rowAdjacent tr := by
  obtain ⟨hNS, hS, hN, _⟩ := hbox
  rw [rasterWalk] at hwalk
  refine walkAux_rows hH hNS hS rows p.box.north p.box.west tiles hrows ?_ hwalk
  have hHQ : (0 : ℚ) < (p.height : ℚ) := by exact_mod_cast hH
  have hcast : ((rows.map Prod.fst).sum : ℚ) ≤ (p.height : ℚ) := by exact_mod_cast hheights
  have hfrac : ((rows.map Prod.fst).sum : ℚ) / (p.height : ℚ) ≤ 1 := by
    rw [div_le_one hHQ]
    exact hcast
  have hfrac0 : 0 ≤ ((rows.map Prod.fst).sum : ℚ) / (p.height : ℚ) := by positivity
  nlinarith

/-- C1 witness: a 2 by 2 grid of 5000 pixel square tiles over the 10000
pixel square parent with box north 50, south 40, east 10, west 0. -/
theorem c1_raster_walk_invariants_witness :
    (∀ t ∈ ([⟨"", 5000, 5000, ⟨50, 45, 5, 0⟩⟩, ⟨"", 5000, 5000, ⟨50, 45, 10, 5⟩⟩,
        ⟨"", 5000, 5000, ⟨45, 40, 5, 0⟩⟩, ⟨"", 5000, 5000, ⟨45, 40, 10, 5⟩⟩] : List mapTile),
      tileLatOK t) ∧
    ∃ tileRows : List (List mapTile),
      tileRows.flatten
          = [⟨"", 5000, 5000, ⟨50, 45, 5, 0⟩⟩, ⟨"", 5000, 5000, ⟨50, 45, 10, 5⟩⟩,
             ⟨"", 5000, 5000, ⟨45, 40, 5, 0⟩⟩, ⟨"", 5000, 5000, ⟨45, 40, 10, 5⟩⟩] ∧
      tileRows.map List.length = [2, 2] ∧
      ∀ tr ∈ tileRows, List.Chain' rowAdjacent tr :=
  c1_raster_walk_invariants parentC7
    [(5000, [(5000, 5000), (5000, 5000)]), (5000, [(5000, 5000), (5000, 5000)])]
    [⟨"", 5000, 5000, ⟨50, 45, 5, 0⟩⟩, ⟨"", 5000, 5000, ⟨50, 45, 10, 5⟩⟩,
     ⟨"", 5000, 5000, ⟨45, 40, 5, 0⟩⟩, ⟨"", 5000, 5000, ⟨45, 40, 10, 5⟩⟩]
    (by with_unfolding_all decide)
    (by with_unfolding_all decide)
    (by with_unfolding_all decide)
    (by with_unfolding_all decide)
    (by with_unfolding_all rfl)

set_option maxRecDepth 8000 in
/-- C7: slicing the 10000 by 10000 pixel parent with box north 50, south
40, east 10, west 0 into the raster sequence of one hundred 1000 pixel
square tiles (a 10 by 10 grid), the walk completes with 100 tiles and the
last, bottom-right tile closes the parent box exactly: its south is the
parent south 40 and its east the parent east 10; over the exact rationals
the floating-point tolerance of the spec collapses to equality. -/
theorem c7_grid_last_tile :
    (rasterWalk parentC7 (List.replicate 100 (1000, 1000))).map List.length = some 100 ∧
    ((rasterWalk parentC7 (List.replicate 100 (1000, 1000))).bind List.getLast?).map
      (fun t => (t.box.south, t.box.east)) = some (40, 10) :=
  ⟨by with_unfolding_all rfl, by with_unfolding_all rfl⟩
